import Mathlib

/-!
Shallow embedding of `src/analytics/timeline.py` (class `Timeline`).

Modelling conventions:
* Instants are integer seconds (`Int`).  The Python `_ts2int` conversion of a
  datetime / pandas Timestamp / Unix-timestamp input is modelled as acting on
  the already-converted integer-seconds value, where it is the identity; an
  absent time (`None` / `pandas.NaT`) is `Option.none`.
* The `SortedKeyList` of mutable `[instant, delta]` pairs becomes a
  `List (Int × Int)` kept sorted by instant; `add`'s
  lookup-by-key-then-merge-or-insert (`irange_key` + in-place `+=`, else
  sorted insertion) becomes the function `insertDelta`.
* `pandas.Timestamp` renderings produced by `_int2ts` are modelled by the
  instant itself (`int2ts` is the identity on integer seconds).
* The Python float division in `average` is modelled with exact rationals.
* Raised exceptions become `Except String` errors.
-/

/-- A row of the availability view consumed by `Timeline.count`: the bulk
loader reads either the `start_time` / `end_time` pair or the
`start_time_local` / `end_time_local` pair, depending on the `local` flag. -/
structure Record where
  start_time : Option Int
  end_time : Option Int
  start_time_local : Option Int
  end_time_local : Option Int
  deriving DecidableEq

/-- One row of the interval partition DataFrame, with its six columns
`start`, `end`, `delta`, `count`, `start_date`, `end_date`. -/
structure Row where
  start : Int
  «end» : Int
  delta : Int
  count : Int
  start_date : Int
  end_date : Int
  deriving DecidableEq

/-- State of a `Timeline` object: the converted window bounds, the raw
(start, end) inputs (already as integer seconds, see `ts2int`), the
configuration flags, and the sorted delta timeline. -/
structure Timeline where
  start : Int
  «end» : Int
  start_int : Int
  end_int : Int
  local_ : Bool
  debug : Bool
  timeline : List (Int × Int)
  deriving DecidableEq

/-- Models `Timeline._ts2int`: converting an integer-seconds value to an
integer is the identity. -/
def ts2int (t : Int) : Int := t

/-- Models `Timeline._int2ts`: the Timestamp rendering of an instant is
identified with the instant itself. -/
def int2ts (i : Int) : Int := i

/-- Models `Timeline.__init__`: raises (`TypeError`) when `start` or `end`
is absent; otherwise stores the bounds, their integer conversions, the
flags, and resets the timeline to empty. -/
def Timeline.init (start «end» : Option Int) (local_ debug : Bool) :
    Except String Timeline :=
  match start, «end» with
  | none, _ => .error "NoneType was unexpected for start and/or end"
  | _, none => .error "NoneType was unexpected for start and/or end"
  | some s, some e =>
      .ok { start := s, «end» := e, start_int := ts2int s, end_int := ts2int e,
            local_ := local_, debug := debug, timeline := [] }

/-- Models `Timeline._reset`: clears the stored deltas, keeping the window. -/
def Timeline._reset (tl : Timeline) : Timeline := { tl with timeline := [] }

/-- The merge-or-insert on the sorted delta list performed by `Timeline.add`:
if an entry with the given instant exists its delta is updated in place,
otherwise a new `(instant, delta)` entry is inserted at its sorted position. -/
def insertDelta : List (Int × Int) → Int → Int → List (Int × Int)
  | [], t, d => [(t, d)]
  | a :: rest, t, d =>
      if a.1 = t then (a.1, a.2 + d) :: rest
      else if t < a.1 then (t, d) :: a :: rest
      else a :: insertDelta rest t d

/-- The effective instant computed by `Timeline.add`: the window end for an
absent time, otherwise `min(max(ts2int time, start_int), end_int)`. -/
def Timeline.clampTime (tl : Timeline) (time : Option Int) : Int :=
  match time with
  | none => tl.end_int
  | some t => min (max (ts2int t) tl.start_int) tl.end_int

/-- Models `Timeline.add`: clamp the time into the window (window end when
absent) and merge-or-insert the delta at that instant. -/
def Timeline.add (tl : Timeline) (time : Option Int) (delta : Int) : Timeline :=
  { tl with timeline := insertDelta tl.timeline (tl.clampTime time) delta }

/-- The row loop inside `Timeline.count`: for each record, add a `+1` delta
at its start time and a `-1` delta at its end time, reading the local or
absolute columns according to the `local` flag. -/
def countLoop : Timeline → List Record → Timeline
  | tl, [] => tl
  | tl, row :: rest =>
      if tl.local_ then
        countLoop ((tl.add row.start_time_local 1).add row.end_time_local (-1)) rest
      else
        countLoop ((tl.add row.start_time 1).add row.end_time (-1)) rest

/-- Models `Timeline.count`: reset, load every record, and return `self`.
The mutation-plus-`return self` protocol is rendered as a pair
(post-state, returned object). -/
def Timeline.count (tl : Timeline) (data : List Record) : Timeline × Timeline :=
  let final := countLoop tl._reset data
  (final, final)

/-- The loop inside `Timeline.partition`: walk consecutive stored pairs,
fold each left delta into the running count, and emit one row per pair. -/
def partitionRows (count : Int) : List (Int × Int) → List Row
  | a :: b :: rest =>
      { start := a.1, «end» := b.1, delta := b.1 - a.1, count := count + a.2,
        start_date := int2ts a.1, end_date := int2ts b.1 }
        :: partitionRows (count + a.2) (b :: rest)
  | _ => []

/-- Models `Timeline.partition`: the interval partition derived from the
current timeline, as the ordered list of its rows. -/
def Timeline.partition (tl : Timeline) : List Row := partitionRows 0 tl.timeline

/-- Models `Timeline.delta_x`: the `delta` column of the partition. -/
def Timeline.delta_x (tl : Timeline) : List Int :=
  tl.partition.map (fun r => r.delta)

/-- Models `Timeline.norm`: the maximum sub-interval width; Python's `max`
on the empty column raises `ValueError: max() arg is an empty sequence`. -/
def Timeline.norm (tl : Timeline) : Except String Int :=
  match tl.delta_x with
  | [] => .error "max arg is an empty sequence"
  | x :: xs => .ok (xs.foldl max x)

/-- Models `Timeline.dimension`: the number of rows in the partition. -/
def Timeline.dimension (tl : Timeline) : Nat := tl.partition.length

/-- Models `Timeline.average`: `0` when at most one instant is stored,
otherwise the Riemann sum `Σ count * delta` over the partition divided by
the window length `ts2int(end) - ts2int(start)`. -/
def Timeline.average (tl : Timeline) : ℚ :=
  if tl.timeline.length ≤ 1 then 0
  else
    let sigma : Int := (tl.partition.map (fun r => r.count * r.delta)).sum
    (sigma : ℚ) / ((ts2int tl.«end» - ts2int tl.start : Int) : ℚ)

/-- Applying a list of `add` operations in order, used to describe the
states reachable through the public mutation interface. -/
def applyAdds : Timeline → List (Option Int × Int) → Timeline
  | tl, [] => tl
  | tl, op :: ops => applyAdds (tl.add op.1 op.2) ops

/-! ### Helper lemmas about the sorted merge-or-insert -/

/-- `insertDelta` always leaves an entry at the inserted instant. -/
theorem insertDelta_mem_keys (l : List (Int × Int)) (t d : Int) :
    t ∈ (insertDelta l t d).map Prod.fst := by
  induction l with
  | nil => simp [insertDelta]
  | cons a rest ih =>
    by_cases h1 : a.1 = t
    · simp [insertDelta, h1]
    · by_cases h2 : t < a.1
      · simp [insertDelta, h1, h2]
      · simpa [insertDelta, h1, h2] using Or.inr ih

/-- `insertDelta` creates no instants other than the inserted one. -/
theorem insertDelta_keys_subset (l : List (Int × Int)) (t d k : Int)
    (hk : k ∈ (insertDelta l t d).map Prod.fst) :
    k ∈ l.map Prod.fst ∨ k = t := by
  induction l with
  | nil =>
    simp [insertDelta] at hk
    exact Or.inr hk
  | cons a rest ih =>
    by_cases h1 : a.1 = t
    · simp only [insertDelta, if_pos h1, List.map_cons, List.mem_cons] at hk ⊢
      tauto
    · by_cases h2 : t < a.1
      · simp only [insertDelta, if_neg h1, if_pos h2, List.map_cons,
          List.mem_cons] at hk ⊢
        tauto
      · simp only [insertDelta, if_neg h1, if_neg h2, List.map_cons,
          List.mem_cons] at hk ⊢
        rcases hk with hk | hk
        · exact Or.inl (Or.inl hk)
        · rcases ih hk with h | h
          · exact Or.inl (Or.inr h)
          · exact Or.inr h

/-- The head instant after `insertDelta` is the inserted instant or the old
head instant. -/
theorem insertDelta_head (l : List (Int × Int)) (t d : Int) :
    (insertDelta l t d).head?.map Prod.fst = some t ∨
    (insertDelta l t d).head?.map Prod.fst = l.head?.map Prod.fst := by
  cases l with
  | nil => left; rfl
  | cons a rest =>
    by_cases h1 : a.1 = t
    · left; simp [insertDelta, h1]
    · by_cases h2 : t < a.1
      · left; simp [insertDelta, h1, h2]
      · right; simp [insertDelta, h1, h2]

/-- `insertDelta` preserves strict sortedness by instant. -/
theorem insertDelta_chain (l : List (Int × Int)) (t d : Int)
    (h : List.Chain' (fun p q : Int × Int => p.1 < q.1) l) :
    List.Chain' (fun p q : Int × Int => p.1 < q.1) (insertDelta l t d) := by
  induction l with
  | nil => simp [insertDelta]
  | cons a rest ih =>
    rw [List.chain'_cons'] at h
    by_cases h1 : a.1 = t
    · simp only [insertDelta, if_pos h1]
      rw [List.chain'_cons']
      exact ⟨fun y hy => h.1 y hy, h.2⟩
    · by_cases h2 : t < a.1
      · simp only [insertDelta, if_neg h1, if_pos h2]
        exact List.Chain'.cons h2 (List.chain'_cons'.mpr h)
      · simp only [insertDelta, if_neg h1, if_neg h2]
        rw [List.chain'_cons']
        refine ⟨?_, ih h.2⟩
        intro y hy
        have hat : a.1 < t := by omega
        rcases insertDelta_head rest t d with hh | hh
        · rw [hy] at hh
          simp at hh
          omega
        · rw [hy] at hh
          cases hr : rest.head? with
          | none => rw [hr] at hh; simp at hh
          | some z =>
            rw [hr] at hh
            simp at hh
            have := h.1 z hr
            omega

/-- Merging twice at the same instant is merging the summed delta once. -/
theorem insertDelta_twice (l : List (Int × Int)) (t d1 d2 : Int) :
    insertDelta (insertDelta l t d1) t d2 = insertDelta l t (d1 + d2) := by
  induction l with
  | nil => simp [insertDelta]
  | cons a rest ih =>
    by_cases h1 : a.1 = t
    · simp [insertDelta, h1, Int.add_assoc]
    · by_cases h2 : t < a.1
      · simp [insertDelta, h1, h2]
      · simp [insertDelta, h1, h2, ih]

/-- A list with no entry at instant `t` filters to nothing at `t`. -/
theorem filter_keys_nil (l : List (Int × Int)) (t : Int)
    (hf : ∀ p ∈ l, p.1 ≠ t) :
    l.filter (fun p => p.1 == t) = [] := by
  induction l with
  | nil => rfl
  | cons a rest ih =>
    have ha : ¬ (a.1 = t) := hf a (by simp)
    have hrest := ih fun p hp => hf p (by simp [hp])
    simp [List.filter_cons, ha, hrest]

/-- Inserting at a fresh instant yields exactly one entry at that instant,
carrying exactly the inserted delta. -/
theorem insertDelta_filter_fresh (l : List (Int × Int)) (t d : Int)
    (hf : ∀ p ∈ l, p.1 ≠ t) :
    (insertDelta l t d).filter (fun p => p.1 == t) = [(t, d)] := by
  induction l with
  | nil => simp [insertDelta]
  | cons a rest ih =>
    have ha : ¬ (a.1 = t) := hf a (by simp)
    have hrest : ∀ p ∈ rest, p.1 ≠ t := fun p hp => hf p (by simp [hp])
    by_cases h2 : t < a.1
    · simp only [insertDelta, if_neg ha, if_pos h2]
      rw [List.filter_cons, List.filter_cons]
      simp only [beq_iff_eq, beq_self_eq_true, if_pos rfl, if_neg, ha]
      simp [ha, filter_keys_nil rest t hrest]
    · simp only [insertDelta, if_neg ha, if_neg h2]
      rw [List.filter_cons]
      simp [ha, ih hrest]

/-! ### Helper lemmas about the partition loop -/

/-- The partition loop emits one row per consecutive pair of entries. -/
theorem partitionRows_length (l : List (Int × Int)) :
    ∀ c : Int, (partitionRows c l).length = l.length - 1 := by
  induction l with
  | nil => intro c; rfl
  | cons a rest ih =>
    intro c
    cases rest with
    | nil => rfl
    | cons b rest2 =>
      simp only [partitionRows, List.length_cons, ih (c + a.2)]
      omega

/-- Consecutive partition rows share their boundary instant. -/
theorem partitionRows_chain (l : List (Int × Int)) :
    ∀ c : Int,
      List.Chain' (fun r r' : Row => r.«end» = r'.start) (partitionRows c l) := by
  induction l with
  | nil => intro c; simp [partitionRows]
  | cons a rest ih =>
    intro c
    cases rest with
    | nil => simp [partitionRows]
    | cons b rest2 =>
      simp only [partitionRows]
      rw [List.chain'_cons']
      refine ⟨?_, ih (c + a.2)⟩
      intro y hy
      cases rest2 with
      | nil => simp [partitionRows] at hy
      | cons b2 rest3 =>
        simp only [partitionRows, List.head?_cons, Option.mem_def,
          Option.some.injEq] at hy
        rw [← hy]

/-- On a strictly sorted timeline every partition row has positive width. -/
theorem partitionRows_delta_pos (l : List (Int × Int))
    (hs : List.Chain' (fun p q : Int × Int => p.1 < q.1) l) :
    ∀ (c : Int) (r : Row), r ∈ partitionRows c l → 0 < r.delta := by
  induction l with
  | nil => intro c r hr; simp [partitionRows] at hr
  | cons a rest ih =>
    intro c r hr
    cases rest with
    | nil => simp [partitionRows] at hr
    | cons b rest2 =>
      rw [List.chain'_cons] at hs
      simp only [partitionRows, List.mem_cons] at hr
      rcases hr with hr | hr
      · rw [hr]
        simp only
        omega
      · exact ih hs.2 (c + a.2) r hr

/-! ### Helper lemmas about the bulk loader and reachable states -/

/-- `add` touches only the `timeline` field: resetting afterwards gives the
same object as resetting beforehand. -/
theorem add_reset (tl : Timeline) (time : Option Int) (delta : Int) :
    (tl.add time delta)._reset = tl._reset := rfl

/-- Loading records touches only the `timeline` field: resetting after a
load gives the same object as resetting the original. -/
theorem countLoop_reset (data : List Record) :
    ∀ tl : Timeline, (countLoop tl data)._reset = tl._reset := by
  induction data with
  | nil => intro tl; rfl
  | cons row rest ih =>
    intro tl
    by_cases h : tl.local_
    · simp only [countLoop, if_pos h]
      rw [ih, add_reset, add_reset]
    · simp only [countLoop, if_neg h]
      rw [ih, add_reset, add_reset]

/-- The bulk loader preserves the window start bound. -/
theorem countLoop_start_int (data : List Record) (tl : Timeline) :
    (countLoop tl data).start_int = tl.start_int := by
  have h := congrArg Timeline.start_int (countLoop_reset data tl)
  simpa [Timeline._reset] using h

/-- The bulk loader preserves the window end bound. -/
theorem countLoop_end_int (data : List Record) (tl : Timeline) :
    (countLoop tl data).end_int = tl.end_int := by
  have h := congrArg Timeline.end_int (countLoop_reset data tl)
  simpa [Timeline._reset] using h

/-- The bulk loader preserves the raw start input. -/
theorem countLoop_start (data : List Record) (tl : Timeline) :
    (countLoop tl data).start = tl.start := by
  have h := congrArg Timeline.start (countLoop_reset data tl)
  simpa [Timeline._reset] using h

/-- The bulk loader preserves the raw end input. -/
theorem countLoop_end (data : List Record) (tl : Timeline) :
    (countLoop tl data).«end» = tl.«end» := by
  have h := congrArg Timeline.«end» (countLoop_reset data tl)
  simpa [Timeline._reset] using h

/-- The bulk loader preserves the `local` flag. -/
theorem countLoop_local (data : List Record) (tl : Timeline) :
    (countLoop tl data).local_ = tl.local_ := by
  have h := congrArg Timeline.local_ (countLoop_reset data tl)
  simpa [Timeline._reset] using h

/-- The bulk loader preserves the `debug` flag. -/
theorem countLoop_debug (data : List Record) (tl : Timeline) :
    (countLoop tl data).debug = tl.debug := by
  have h := congrArg Timeline.debug (countLoop_reset data tl)
  simpa [Timeline._reset] using h

/-- Repeated `add` calls touch only the `timeline` field. -/
theorem applyAdds_reset (ops : List (Option Int × Int)) :
    ∀ tl : Timeline, (applyAdds tl ops)._reset = tl._reset := by
  induction ops with
  | nil => intro tl; rfl
  | cons op rest ih =>
    intro tl
    simp only [applyAdds]
    rw [ih, add_reset]

/-- On a point window (`start_int = end_int`) every `add` clamps to the
single instant `end_int`, so the timeline keeps at most one entry, located
at `end_int`. -/
theorem applyAdds_degenerate (ops : List (Option Int × Int)) :
    ∀ tl : Timeline, tl.start_int = tl.end_int →
      (∀ p ∈ tl.timeline, p.1 = tl.end_int) → tl.timeline.length ≤ 1 →
      (∀ p ∈ (applyAdds tl ops).timeline, p.1 = tl.end_int) ∧
        (applyAdds tl ops).timeline.length ≤ 1 := by
  induction ops with
  | nil => exact fun tl _ h1 h2 => ⟨h1, h2⟩
  | cons op rest ih =>
    intro tl heq h1 h2
    have hc : tl.clampTime op.1 = tl.end_int := by
      cases hop : op.1 with
      | none => rfl
      | some t =>
        simp only [Timeline.clampTime, ts2int]
        omega
    have hform : (tl.add op.1 op.2).timeline = [(tl.end_int, op.2)] ∨
        ∃ v : Int, (tl.add op.1 op.2).timeline = [(tl.end_int, v)] := by
      cases hl : tl.timeline with
      | nil =>
        left
        simp [Timeline.add, hc, hl, insertDelta]
      | cons q rest2 =>
        cases rest2 with
        | nil =>
          right
          have hq : q.1 = tl.end_int := h1 q (by simp [hl])
          refine ⟨q.2 + op.2, ?_⟩
          simp [Timeline.add, hc, hl, insertDelta, hq]
        | cons q2 rest3 => simp [hl] at h2
    have hkeys : ∀ p ∈ (tl.add op.1 op.2).timeline, p.1 = tl.end_int := by
      rcases hform with hform | ⟨v, hform⟩ <;>
        · rw [hform]
          intro p hp
          simp only [List.mem_singleton] at hp
          rw [hp]
    have hlen : (tl.add op.1 op.2).timeline.length ≤ 1 := by
      rcases hform with hform | ⟨v, hform⟩ <;> simp [hform]
    simpa only [applyAdds] using ih (tl.add op.1 op.2) heq hkeys hlen

/-! ### Concrete states used by the claims -/

/-- A `Timeline` as built by a successful `__init__` on already-converted
integer-second bounds, with default flags. -/
def mkTimeline (s e : Int) : Timeline :=
  { start := s, «end» := e, start_int := ts2int s, end_int := ts2int e,
    local_ := false, debug := false, timeline := [] }

/-- The synthetic input of the spec's worked example: intervals
`[(0,5), (2,7)]` as availability records. -/
def recordsC1 : List Record :=
  [⟨some 0, some 5, none, none⟩, ⟨some 2, some 7, none, none⟩]

/-- The worked example: intervals `[(0,5), (2,7)]` loaded into a timeline
with window `[0, 10]`. -/
def tlC1 : Timeline := ((mkTimeline 0 10).count recordsC1).2

/-- A timeline over window `[0, 10]` holding the deltas `(1, 5)`. -/
def tlC4 : Timeline := (mkTimeline 0 10).add (some 1) 5

/-- A timeline over window `[0, 10]` holding the deltas `(2, +1), (6, -1)`. -/
def tlC5 : Timeline := ((mkTimeline 0 10).add (some 2) 1).add (some 6) (-1)

/-- An inverted window (`start_int = 5 > 3 = end_int`). -/
def tlInverted : Timeline := mkTimeline 5 3

/-! ### The claims -/

/-- The worked example's average evaluates to `1`. -/
theorem tlC1_average_eq : tlC1.average = 1 := by
  have hcond : ¬ (tlC1.timeline.length ≤ 1) := by decide
  have hpart : tlC1.partition
      = [⟨0, 2, 2, 1, 0, 2⟩, ⟨2, 5, 3, 2, 2, 5⟩, ⟨5, 7, 2, 1, 5, 7⟩] := by
    decide
  have hend : ts2int tlC1.«end» = 10 := by decide
  have hstart : ts2int tlC1.start = 0 := by decide
  unfold Timeline.average
  rw [if_neg hcond]
  simp only [hpart, hend, hstart, List.map_cons, List.map_nil, List.sum_cons,
    List.sum_nil]
  norm_num

/-- Claim C1, counterexample: for the spec's worked example the partition is
`[(0,2,2,1), (2,5,3,2), (5,7,2,1)]` as claimed, but `average()` is
`(2*1 + 3*2 + 2*1)/10 = 10/10 = 1`, not `1.4`; so the claimed conjunction
fails. -/
theorem timeline_example_counterexample :
    ¬ (tlC1.partition
        = [⟨0, 2, 2, 1, 0, 2⟩, ⟨2, 5, 3, 2, 2, 5⟩, ⟨5, 7, 2, 1, 5, 7⟩]
       ∧ tlC1.average = 7 / 5) := by
  intro h
  have h2 := h.2
  rw [tlC1_average_eq] at h2
  norm_num at h2

/-- Claim C1 (amended): for the input intervals `[(0,5), (2,7)]` loaded into
a timeline with window `[0, 10]`, the partition consists of exactly the rows
`(start, end, width, count) = (0,2,2,1), (2,5,3,2), (5,7,2,1)`, and
`average()` equals `(2*1 + 3*2 + 2*1)/10 = 1.0`. -/
theorem timeline_example_amended :
    tlC1.partition
      = [⟨0, 2, 2, 1, 0, 2⟩, ⟨2, 5, 3, 2, 2, 5⟩, ⟨5, 7, 2, 1, 5, 7⟩]
    ∧ tlC1.average = (2 * 1 + 3 * 2 + 2 * 1) / 10 := by
  refine ⟨by decide, ?_⟩
  rw [tlC1_average_eq]
  norm_num

/-- Claim C2: `average()` returns `0` when at most one instant is stored,
and otherwise returns `sigma / (end_int - start_int)` where `sigma` sums
`count * width` over the partition rows and the denominator is the original
window length.  The hypotheses record the constructor invariant that the
`_int` fields are the conversions of the stored bounds. -/
theorem average_formula (tl : Timeline)
    (h1 : tl.start_int = ts2int tl.start)
    (h2 : tl.end_int = ts2int tl.«end») :
    tl.average =
      if tl.timeline.length ≤ 1 then 0
      else (((tl.partition.map (fun r => r.count * r.delta)).sum : Int) : ℚ)
        / ((tl.end_int - tl.start_int : Int) : ℚ) := by
  unfold Timeline.average
  rw [h1, h2]

/-- Witness for `average_formula` at the state `tlC5`. -/
theorem average_formula_witness :
    tlC5.start_int = ts2int tlC5.start
    ∧ tlC5.end_int = ts2int tlC5.«end»
    ∧ tlC5.average =
        (if tlC5.timeline.length ≤ 1 then 0
         else (((tlC5.partition.map (fun r => r.count * r.delta)).sum : Int) : ℚ)
           / ((tlC5.end_int - tlC5.start_int : Int) : ℚ)) :=
  ⟨by decide, by decide, average_formula tlC5 (by decide) (by decide)⟩

/-- Claim C3, counterexample: on the inverted window `[5, 3]` with `t = 10`,
the code stores the instant `min(max(10, 5), 3) = 3`, while the claimed
formula gives `max(5, min(3, 10)) = 5`; so quantified over all windows the
claim fails. -/
theorem add_clamp_counterexample :
    (tlInverted.add (some 10) 1).timeline.map Prod.fst = [(3 : Int)]
    ∧ max tlInverted.start_int (min tlInverted.end_int 10) ≠ 3 := by
  decide

/-- Claim C3 (amended): for every window with `start_int ≤ end_int`, the
effective instant of `add(t, d)` is `max(start_int, min(end_int, t))`: that
value is the computed clamp, an entry is stored at it, and no other new
instant appears; an absent time is stored at the window end.  (Over inverted
windows the original claim fails, see `add_clamp_counterexample`: the code
computes `min(max(t, start), end)`, which is `end` there.) -/
theorem add_clamp_amended (tl : Timeline) (t d d2 : Int)
    (h : tl.start_int ≤ tl.end_int) :
    tl.clampTime (some t) = max tl.start_int (min tl.end_int t)
    ∧ tl.clampTime none = tl.end_int
    ∧ max tl.start_int (min tl.end_int t)
        ∈ ((tl.add (some t) d).timeline.map Prod.fst)
    ∧ tl.end_int ∈ ((tl.add none d2).timeline.map Prod.fst)
    ∧ ∀ k ∈ ((tl.add (some t) d).timeline.map Prod.fst),
        k ∈ tl.timeline.map Prod.fst ∨ k = max tl.start_int (min tl.end_int t) := by
  have hm : tl.clampTime (some t) = max tl.start_int (min tl.end_int t) := by
    simp only [Timeline.clampTime, ts2int]
    omega
  refine ⟨hm, rfl, ?_, ?_, ?_⟩
  · rw [← hm]
    exact insertDelta_mem_keys tl.timeline (tl.clampTime (some t)) d
  · exact insertDelta_mem_keys tl.timeline tl.end_int d2
  · intro k hk
    rw [← hm]
    exact insertDelta_keys_subset tl.timeline (tl.clampTime (some t)) d k hk

/-- Witness for `add_clamp_amended` on window `[0, 10]` with `t = 15`. -/
theorem add_clamp_amended_witness :
    (mkTimeline 0 10).clampTime (some 15)
      = max (mkTimeline 0 10).start_int (min (mkTimeline 0 10).end_int 15)
    ∧ (mkTimeline 0 10).clampTime none = (mkTimeline 0 10).end_int
    ∧ max (mkTimeline 0 10).start_int (min (mkTimeline 0 10).end_int 15)
        ∈ (((mkTimeline 0 10).add (some 15) 1).timeline.map Prod.fst)
    ∧ (mkTimeline 0 10).end_int
        ∈ (((mkTimeline 0 10).add none 2).timeline.map Prod.fst) := by
  have h := add_clamp_amended (mkTimeline 0 10) 15 1 2 (by decide)
  exact ⟨h.1, h.2.1, h.2.2.1, h.2.2.2.1⟩

/-- The clamp depends only on the window bounds, which `add` preserves. -/
theorem clampTime_add (tl : Timeline) (time : Option Int) (delta : Int)
    (t2 : Option Int) :
    (tl.add time delta).clampTime t2 = tl.clampTime t2 := rfl

/-- Claim C4: two `add` calls whose times clamp to the same fresh instant,
with deltas `d1` and `d2`, leave exactly one stored entry at that instant
with value `d1 + d2`; the timeline never holds two entries with equal
instant and stays sorted ascending (strict chain). -/
theorem add_coalesce (tl : Timeline) (t1 t2 : Option Int) (d1 d2 : Int)
    (hs : List.Chain' (fun p q : Int × Int => p.1 < q.1) tl.timeline)
    (hc : tl.clampTime t1 = tl.clampTime t2)
    (hf : ∀ p ∈ tl.timeline, p.1 ≠ tl.clampTime t1) :
    ((tl.add t1 d1).add t2 d2).timeline.filter
        (fun p => p.1 == tl.clampTime t1) = [(tl.clampTime t1, d1 + d2)]
    ∧ List.Chain' (fun p q : Int × Int => p.1 < q.1)
        ((tl.add t1 d1).add t2 d2).timeline := by
  have hts : ((tl.add t1 d1).add t2 d2).timeline
      = insertDelta (insertDelta tl.timeline (tl.clampTime t1) d1)
          (tl.clampTime t2) d2 := rfl
  rw [← hc, insertDelta_twice] at hts
  constructor
  · rw [hts]
    exact insertDelta_filter_fresh tl.timeline (tl.clampTime t1) (d1 + d2) hf
  · rw [hts]
    exact insertDelta_chain tl.timeline (tl.clampTime t1) (d1 + d2) hs

/-- Witness for `add_coalesce` on `tlC4` with both times clamping to `3`. -/
theorem add_coalesce_witness :
    List.Chain' (fun p q : Int × Int => p.1 < q.1) tlC4.timeline
    ∧ ((tlC4.add (some 3) 2).add (some 3) 4).timeline.filter
        (fun p => p.1 == tlC4.clampTime (some 3))
        = [(tlC4.clampTime (some 3), 2 + 4)]
    ∧ List.Chain' (fun p q : Int × Int => p.1 < q.1)
        ((tlC4.add (some 3) 2).add (some 3) 4).timeline := by
  have hs4 : List.Chain' (fun p q : Int × Int => p.1 < q.1) tlC4.timeline := by
    show List.Chain' (fun p q : Int × Int => p.1 < q.1) [((1 : Int), (5 : Int))]
    exact List.chain'_singleton _
  have h := add_coalesce tlC4 (some 3) (some 3) 2 4 hs4 rfl (by decide)
  exact ⟨hs4, h.1, h.2⟩

/-- Claim C5: on a strictly sorted timeline, consecutive partition rows
satisfy `row[i].end = row[i+1].start`, every width is strictly positive,
`dimension` equals `timeline length - 1` (truncated subtraction, so
`max(0, instants - 1)`), and the partition is empty when fewer than two
instants are stored. -/
theorem partition_invariants (tl : Timeline)
    (hs : List.Chain' (fun p q : Int × Int => p.1 < q.1) tl.timeline) :
    List.Chain' (fun r r' : Row => r.«end» = r'.start) tl.partition
    ∧ (∀ r ∈ tl.partition, 0 < r.delta)
    ∧ tl.dimension = tl.timeline.length - 1
    ∧ (tl.timeline.length ≤ 1 → tl.partition = []) := by
  refine ⟨partitionRows_chain tl.timeline 0,
    fun r hr => partitionRows_delta_pos tl.timeline hs 0 r hr,
    partitionRows_length tl.timeline 0, ?_⟩
  intro hlen
  have hl := partitionRows_length tl.timeline 0
  have h0 : tl.partition.length = 0 := by
    show (partitionRows 0 tl.timeline).length = 0
    omega
  exact List.length_eq_zero.mp h0

/-- Witness for `partition_invariants` at the state `tlC5`. -/
theorem partition_invariants_witness :
    List.Chain' (fun p q : Int × Int => p.1 < q.1) tlC5.timeline
    ∧ List.Chain' (fun r r' : Row => r.«end» = r'.start) tlC5.partition
    ∧ tlC5.dimension = tlC5.timeline.length - 1 := by
  have hs5 : List.Chain' (fun p q : Int × Int => p.1 < q.1) tlC5.timeline := by
    show List.Chain' (fun p q : Int × Int => p.1 < q.1)
      [((2 : Int), (1 : Int)), ((6 : Int), (-1 : Int))]
    exact List.Chain'.cons (by norm_num) (List.chain'_singleton _)
  have h := partition_invariants tlC5 hs5
  exact ⟨hs5, h.1, h.2.2.1⟩

/-- Claim C6: on a zero-row partition, `norm` raises (modelled as the
`ValueError` of Python's `max` on an empty sequence), while `average` does
not raise and returns `0`. -/
theorem norm_raises_average_zero (tl : Timeline) (h : tl.partition.length = 0) :
    tl.norm = Except.error "max arg is an empty sequence"
    ∧ tl.average = 0 := by
  have hp : tl.partition = [] := List.length_eq_zero.mp h
  have hlen : tl.timeline.length ≤ 1 := by
    have hl := partitionRows_length tl.timeline 0
    have h0 : (partitionRows 0 tl.timeline).length = 0 := h
    omega
  constructor
  · simp [Timeline.norm, Timeline.delta_x, hp]
  · simp [Timeline.average, hlen]

/-- Witness for `norm_raises_average_zero` on an empty accumulator. -/
theorem norm_raises_average_zero_witness :
    (mkTimeline 0 10).partition.length = 0
    ∧ (mkTimeline 0 10).norm = Except.error "max arg is an empty sequence"
    ∧ (mkTimeline 0 10).average = 0 := by
  have h := norm_raises_average_zero (mkTimeline 0 10) (by decide)
  exact ⟨by decide, h.1, h.2⟩

/-- Claim C7: the bulk loader resets before loading, so loading the same
records twice produces the same state, and in particular the same
partition — deltas never accumulate across calls. -/
theorem count_idempotent (tl : Timeline) (data : List Record) :
    ((tl.count data).1.count data).1 = (tl.count data).1
    ∧ ((tl.count data).1.count data).1.partition = (tl.count data).1.partition := by
  have hmain : ((tl.count data).1.count data).1 = (tl.count data).1 := by
    show countLoop ((countLoop tl._reset data)._reset) data
        = countLoop tl._reset data
    rw [countLoop_reset]
    rfl
  exact ⟨hmain, congrArg Timeline.partition hmain⟩

/-- Claim C8: initialization fails whenever the supplied start or end is
absent, and no `Timeline` object is produced in that case. -/
theorem init_absent_fails (s e : Option Int) (local_ debug : Bool)
    (h : s = none ∨ e = none) (tl : Timeline) :
    Timeline.init s e local_ debug ≠ Except.ok tl := by
  rcases h with h | h
  · subst h
    simp [Timeline.init]
  · subst h
    cases s <;> simp [Timeline.init]

/-- Witness for `init_absent_fails` with an absent start. -/
theorem init_absent_fails_witness :
    Timeline.init none (some 3) false false ≠ Except.ok (mkTimeline 0 0) :=
  init_absent_fails none (some 3) false false (Or.inl rfl) (mkTimeline 0 0)

/-- Claim C9: under the precondition `start_int ≤ end_int`, `average` never
divides by zero: on a zero-length window every `add` clamps to the single
instant, so any state reachable by `add` calls from a reset state holds at
most one entry and `average` returns `0` on the degenerate branch, before
the division. -/
theorem average_no_division_by_zero (tl : Timeline)
    (ops : List (Option Int × Int))
    (hpre : tl.start_int ≤ tl.end_int)
    (hdeg : tl.end_int - tl.start_int = 0) :
    (applyAdds tl._reset ops).timeline.length ≤ 1
    ∧ (applyAdds tl._reset ops).average = 0 := by
  have heq : tl._reset.start_int = tl._reset.end_int := by
    show tl.start_int = tl.end_int
    omega
  have h := applyAdds_degenerate ops tl._reset heq
    (by intro p hp; simp [Timeline._reset] at hp)
    (by simp [Timeline._reset])
  refine ⟨h.2, ?_⟩
  simp [Timeline.average, h.2]

/-- Witness for `average_no_division_by_zero` on the point window `[7, 7]`. -/
theorem average_no_division_by_zero_witness :
    (mkTimeline 7 7).start_int ≤ (mkTimeline 7 7).end_int
    ∧ (applyAdds (mkTimeline 7 7)._reset [(some 3, 1), (none, 2)]).timeline.length ≤ 1
    ∧ (applyAdds (mkTimeline 7 7)._reset [(some 3, 1), (none, 2)]).average = 0 := by
  have h := average_no_division_by_zero (mkTimeline 7 7)
    [(some 3, 1), (none, 2)] (by decide) (by decide)
  exact ⟨by decide, h.1, h.2⟩

/-- Claim C10: `count` returns the very instance it was invoked on — the
returned object is the post-state, and it carries the receiver's window
bounds and flags unchanged, so loading and querying can be chained. -/
theorem count_returns_self (tl : Timeline) (data : List Record) :
    (tl.count data).2 = (tl.count data).1
    ∧ (tl.count data).2.start = tl.start
    ∧ (tl.count data).2.«end» = tl.«end»
    ∧ (tl.count data).2.start_int = tl.start_int
    ∧ (tl.count data).2.end_int = tl.end_int
    ∧ (tl.count data).2.local_ = tl.local_
    ∧ (tl.count data).2.debug = tl.debug := by
  refine ⟨rfl, ?_, ?_, ?_, ?_, ?_, ?_⟩
  · exact countLoop_start data tl._reset
  · exact countLoop_end data tl._reset
  · exact countLoop_start_int data tl._reset
  · exact countLoop_end_int data tl._reset
  · exact countLoop_local data tl._reset
  · exact countLoop_debug data tl._reset
